import Mathlib

/-!
Shallow embedding of the document section extractor of `app.py`
(`parse_rca_docx` and its inner helpers `is_heading`, `find_heading`,
`section`, `value_after`, the title heuristic and the action-item
decomposition), together with the remedial-action rows built by the
"Save RCA to DB" handler.  Strings are Lean `String`s (lists of
characters); Python's `str.strip` / `str.lower` / `str.startswith` are
modelled character-by-character below.
-/

namespace RCA

/-- The fixed heading catalogue `HEADINGS` of `app.py`. -/
def HEADINGS : List String :=
  [ "Incident Date"
  , "Incident / Problem"
  , "Services Affected"
  , "Customer Impact"
  , "Description"
  , "Root Cause"
  , "Workaround"
  , "Workaround (Actions to restore service)"
  , "Long Term Solutions"
  , "Long Term Solutions (Actions to prevent recurrence)"
  , "Contributing Process Factors"
  , "Stage" ]

/-- The whitespace characters removed by Python `str.strip()` (ASCII part:
space, tab, newline, carriage return, vertical tab, form feed). -/
def pyWhitespace : List Char :=
  [' ', '\t', '\n', '\r', Char.ofNat 11, Char.ofNat 12]

/-- Remove every leading and trailing character of `cs` from a character
list: the core of Python `str.strip(chars)`. -/
def stripCharsL (cs : List Char) (l : List Char) : List Char :=
  ((l.dropWhile cs.contains).reverse.dropWhile cs.contains).reverse

/-- Python `s.strip(chars)` on strings. -/
def stripChars (cs : List Char) (s : String) : String :=
  ⟨stripCharsL cs s.data⟩

/-- Python `s.strip()` (no argument): trim whitespace from both ends. -/
def pyStrip (s : String) : String := stripChars pyWhitespace s

/-- The character set of `ln.strip(" \t•-")` in the action-item
decomposition of `parse_rca_docx`: space, tab, bullet, hyphen. -/
def bulletChars : List Char := [' ', '\t', '•', '-']

/-- Python `ln.strip(" \t•-")`: trim bullet markers from both ends. -/
def stripBullets (s : String) : String := stripChars bulletChars s

/-- Python `s.lower()` (ASCII lowering; the catalogue and keys are ASCII). -/
def pyLower (s : String) : String := ⟨s.data.map Char.toLower⟩

/-- Python `s.startswith(p)`. -/
def strStartsWith (s p : String) : Bool := p.data.isPrefixOf s.data

/-- The per-fragment test of `find_heading(key)` in `app.py`:
`tl == kl or tl.startswith(kl)` for `tl = t.strip().lower()`,
`kl = key.lower()`. -/
def keyMatches (key t : String) : Bool :=
  let tl := pyLower (pyStrip t)
  let kl := pyLower key
  tl == kl || strStartsWith tl kl

/-- `is_heading(t)` of `app.py`: the trimmed, lowercased text equals or
starts with the lowercased form of some catalogue entry. -/
def is_heading (t : String) : Bool :=
  HEADINGS.any (fun h =>
    let tl := pyLower (pyStrip t)
    let hl := pyLower h
    tl == hl || strStartsWith tl hl)

/-- Index of the first list element satisfying `p` (the `enumerate` loop
shared by `find_heading` and the section/value scans). -/
def findFirstIdx (p : String → Bool) : List String → Option Nat
  | [] => none
  | t :: ts => if p t then some 0 else (findFirstIdx p ts).map (· + 1)

/-- `find_heading(key)` of `app.py`: first fragment index whose trimmed,
lowercased text equals or starts with the lowercased key, else `None`. -/
def find_heading (items : List String) (key : String) : Option Nat :=
  findFirstIdx (keyMatches key) items

/-- The bound `j` computed by `section` in `app.py`: the first index
`k ≥ start` with `is_heading(items[k])`, or `len(items)` if none. -/
def nextHeadingIdx (items : List String) (start : Nat) : Nat :=
  match findFirstIdx is_heading (items.drop start) with
  | some d => start + d
  | none => items.length

/-- Python `"\n".join(items)`. -/
def joinNL : List String → String
  | [] => ""
  | [s] => s
  | s :: t :: rest => s ++ "\n" ++ joinNL (t :: rest)

/-- `section(key)` of `app.py` (named `sectionOf` because `section` is a
Lean keyword): fragments strictly between the heading and the next
recognized heading (or the end), newline-joined and trimmed. -/
def sectionOf (items : List String) (key : String) : String :=
  match find_heading items key with
  | none => ""
  | some i =>
    let j := nextHeadingIdx items (i + 1)
    pyStrip (joinNL ((items.drop (i + 1)).take (j - (i + 1))))

/-- The per-fragment test of the `value_after` scan:
`items[k].strip() and not is_heading(items[k])`. -/
def isValueFragment (t : String) : Bool :=
  pyStrip t != "" && !is_heading t

/-- The `value_after` scan body: first fragment of the window that is
non-empty after trimming and not a recognized heading, trimmed. -/
def firstValue : List String → String
  | [] => ""
  | t :: ts => if isValueFragment t then pyStrip t else firstValue ts

/-- `value_after(key)` of `app.py`: scan `range(i + 1, min(i + 12,
len(items)))` after the heading for the first non-empty non-heading
fragment; empty string when the heading is absent or the scan fails. -/
def value_after (items : List String) (key : String) : String :=
  match find_heading items key with
  | none => ""
  | some i =>
    firstValue ((items.drop (i + 1)).take (min (i + 12) items.length - (i + 1)))

/-- The title loop test of `parse_rca_docx`: `len(t) > 8 and len(t) < 140`. -/
def titleCandidate (t : String) : Bool :=
  decide (8 < t.length) && decide (t.length < 140)

/-- The title heuristic of `parse_rca_docx`: the filename unless one of the
first 25 fragments has length in `(8, 140)`, in which case the first such
fragment, trimmed. -/
def titleOf (items : List String) (filename : String) : String :=
  match (items.take 25).find? titleCandidate with
  | some t => pyStrip t
  | none => filename

/-- One character of the separator class of `re.split(r"[\n\r]+", ...)`. -/
def isNL (c : Char) : Bool := c == '\n' || c == '\r'

/-- `re.split(r"[\n\r]+", s)` on character lists: split on maximal runs of
newline and carriage-return characters (runs collapse; a leading or
trailing run yields an empty piece, as in Python). -/
def splitNLRuns : List Char → List (List Char)
  | [] => [[]]
  | c :: cs =>
    if isNL c then
      match cs with
      | [] => [[], []]
      | d :: ds =>
        if isNL d then splitNLRuns (d :: ds) else [] :: splitNLRuns (d :: ds)
    else
      match splitNLRuns cs with
      | [] => [[c]]
      | r :: rs => (c :: r) :: rs

/-- `re.split(r"[\n\r]+", s)` on strings. -/
def splitNL (s : String) : List String :=
  (splitNLRuns s.data).map (fun l => ⟨l⟩)

/-- The `raw_lines` comprehension of `parse_rca_docx`:
`[ln.strip(" \t•-") for ln in re.split(r"[\n\r]+", long_term) if ln.strip()]`. -/
def rawLines (long_term : String) : List String :=
  ((splitNL long_term).filter (fun ln => pyStrip ln != "")).map stripBullets

/-- The `actions` list of `parse_rca_docx`:
`[ln for ln in raw_lines if len(ln) > 8]`. -/
def actionsOf (long_term : String) : List String :=
  (rawLines long_term).filter (fun ln => decide (8 < ln.length))

/-- The record returned by `parse_rca_docx`. -/
structure Extracted where
  title : String
  incident_date : String
  services_affected : String
  root_cause : String
  workaround : String
  long_term_solutions : String
  actions : List String
  full_text : String
deriving DecidableEq, Repr

/-- `parse_rca_docx` of `app.py`, as a function of the linearized fragment
sequence and the uploaded file's name. -/
def parse_rca_docx (items : List String) (filename : String) : Extracted :=
  let long_term := sectionOf items "Long Term Solutions"
  { title := titleOf items filename
  , incident_date := value_after items "Incident Date"
  , services_affected := value_after items "Services Affected"
  , root_cause := sectionOf items "Root Cause"
  , workaround := sectionOf items "Workaround"
  , long_term_solutions := long_term
  , actions := actionsOf long_term
  , full_text := joinNL items }

/-- One row of the `actions` insert in the "Save RCA to DB" handler of
`app.py`.  Dates are modelled as day counts. -/
structure ActionRow where
  action_id : String
  rca_id : String
  action_text : String
  owner_team : String
  owner_person : String
  due_date : Nat
  status : String
  verification_method : String
  verified_by : Option String
  verified_at : Option String
  notes : Option String
deriving DecidableEq, Repr

/-- The tuple appended for one action item by the save handler:
`(aid, rid, atext, "Tech", "", date.today() + timedelta(days=14),
"To Do", "Evidence link + independent verification", None, None, None)`. -/
def mkActionRow (aid rid : String) (today : Nat) (atext : String) : ActionRow :=
  { action_id := aid
  , rca_id := rid
  , action_text := atext
  , owner_team := "Tech"
  , owner_person := ""
  , due_date := today + 14
  , status := "To Do"
  , verification_method := "Evidence link + independent verification"
  , verified_by := none
  , verified_at := none
  , notes := none }

/-- The `rows` list built by the save handler: one `ActionRow` per parsed
action item, in order; `gen_id` is abstracted as a supplied generator. -/
def saveActionRows (genId : Nat → String) (rid : String) (today : Nat)
    (acts : List String) : List ActionRow :=
  acts.enum.map (fun p => mkActionRow (genId p.1) rid today p.2)

/-- Claim C3 states a lookahead window of 12 fragments after the heading;
this definition follows the claim's words (first non-empty non-heading
fragment among the 12 after the heading) for comparison with
`value_after`, whose scan stops at `min(i + 12, len(items))` exclusive
and so covers at most 11 fragments. -/
def value_after_claimWindow (items : List String) (key : String) : String :=
  match find_heading items key with
  | none => ""
  | some i => firstValue ((items.drop (i + 1)).take 12)

/-! Helper lemmas about `dropWhile`, the strip helpers and the index
scans, used by the claim theorems below. -/

theorem dropWhile_dropWhile {α : Type} (p : α → Bool) (l : List α) :
    (l.dropWhile p).dropWhile p = l.dropWhile p := by
  induction l with
  | nil => rfl
  | cons a l ih =>
    cases ha : p a with
    | true => rw [List.dropWhile_cons_of_pos ha, ih]
    | false =>
      rw [List.dropWhile_cons_of_neg (by simp [ha]),
        List.dropWhile_cons_of_neg (by simp [ha])]

theorem head_dropWhile_false {α : Type} (p : α → Bool) (l : List α) (a : α)
    (t : List α) (h : l.dropWhile p = a :: t) : p a = false := by
  induction l with
  | nil => simp [List.dropWhile] at h
  | cons b l ih =>
    cases hb : p b with
    | true =>
      rw [List.dropWhile_cons_of_pos hb] at h
      exact ih h
    | false =>
      rw [List.dropWhile_cons_of_neg (by simp [hb])] at h
      cases h
      exact hb

theorem exists_append_dropWhile {α : Type} (p : α → Bool) (l : List α) :
    ∃ t, t ++ l.dropWhile p = l := by
  induction l with
  | nil => exact ⟨[], rfl⟩
  | cons a l ih =>
    cases ha : p a with
    | true =>
      obtain ⟨t, ht⟩ := ih
      exact ⟨a :: t, by rw [List.dropWhile_cons_of_pos ha, List.cons_append, ht]⟩
    | false => exact ⟨[], by rw [List.dropWhile_cons_of_neg (by simp [ha]), List.nil_append]⟩

theorem strip_twice {α : Type} (q : α → Bool) (l : List α) :
    (((((((l.dropWhile q).reverse.dropWhile q).reverse).dropWhile q).reverse).dropWhile q).reverse)
      = ((l.dropWhile q).reverse.dropWhile q).reverse := by
  generalize hl1 : l.dropWhile q = l₁
  generalize hl2 : l₁.reverse.dropWhile q = l₂
  have hA : l₂.reverse.dropWhile q = l₂.reverse := by
    obtain ⟨t, ht⟩ := exists_append_dropWhile q l₁.reverse
    rw [hl2] at ht
    cases hr : l₂.reverse with
    | nil => rfl
    | cons a r' =>
      have h2 := congrArg List.reverse ht
      rw [List.reverse_append, List.reverse_reverse] at h2
      rw [hr] at h2
      simp only [List.cons_append] at h2
      have hfa : q a = false :=
        head_dropWhile_false q l a (r' ++ t.reverse) (hl1.trans h2.symm)
      rw [List.dropWhile_cons_of_neg (by simp [hfa])]
  rw [hA, List.reverse_reverse, ← hl2, dropWhile_dropWhile]

theorem stripCharsL_idem (cs : List Char) (l : List Char) :
    stripCharsL cs (stripCharsL cs l) = stripCharsL cs l := by
  unfold stripCharsL
  exact strip_twice _ l

theorem stripChars_idem (cs : List Char) (s : String) :
    stripChars cs (stripChars cs s) = stripChars cs s :=
  congrArg String.mk (stripCharsL_idem cs s.data)

theorem pyStrip_idem (s : String) : pyStrip (pyStrip s) = pyStrip s :=
  stripChars_idem _ _

theorem stripBullets_idem (s : String) : stripBullets (stripBullets s) = stripBullets s :=
  stripChars_idem _ _

theorem findFirstIdx_eq_none_iff (p : String → Bool) (l : List String) :
    findFirstIdx p l = none ↔ ∀ t ∈ l, p t = false := by
  induction l with
  | nil => simp [findFirstIdx]
  | cons a l ih =>
    cases ha : p a with
    | true => simp [findFirstIdx, ha]
    | false => simp [findFirstIdx, ha, ih]

theorem findFirstIdx_eq_some (p : String → Bool) (l : List String) (i : Nat)
    (h : findFirstIdx p l = some i) :
    ∃ pre x post, l = pre ++ x :: post ∧ pre.length = i ∧ p x = true ∧
      ∀ u ∈ pre, p u = false := by
  induction l generalizing i with
  | nil => simp [findFirstIdx] at h
  | cons a l ih =>
    cases ha : p a with
    | true =>
      have h' := h
      unfold findFirstIdx at h'
      rw [if_pos ha] at h'
      have hi : i = 0 := (Option.some.inj h').symm
      exact ⟨[], a, l, rfl, by simp [hi], ha, by simp⟩
    | false =>
      have h' := h
      unfold findFirstIdx at h'
      rw [if_neg (by simp [ha])] at h'
      rw [Option.map_eq_some'] at h'
      obtain ⟨j, hj, hji⟩ := h'
      subst hji
      obtain ⟨pre, x, post, hl, hlen, hx, hpre⟩ := ih j hj
      refine ⟨a :: pre, x, post, by rw [hl, List.cons_append], by simp [hlen], hx, ?_⟩
      intro u hu
      rcases List.mem_cons.mp hu with rfl | hu'
      · exact ha
      · exact hpre u hu'

theorem findFirstIdx_append_cons (p : String → Bool) (pre : List String)
    (x : String) (post : List String) (hpre : ∀ u ∈ pre, p u = false)
    (hx : p x = true) :
    findFirstIdx p (pre ++ x :: post) = some pre.length := by
  induction pre with
  | nil => simp [findFirstIdx, hx]
  | cons b pre' ih =>
    have hb : p b = false := hpre b (by simp)
    have ih' := ih (fun u hu => hpre u (by simp [hu]))
    simp [findFirstIdx, hb, ih']

theorem take_eq_takeWhile_of_findFirstIdx (p : String → Bool) (l : List String)
    (d : Nat) (h : findFirstIdx p l = some d) :
    l.take d = l.takeWhile (fun a => !p a) := by
  induction l generalizing d with
  | nil => simp [findFirstIdx] at h
  | cons a l ih =>
    cases ha : p a with
    | true =>
      have h' := h
      unfold findFirstIdx at h'
      rw [if_pos ha] at h'
      have hd : d = 0 := (Option.some.inj h').symm
      simp [hd, List.takeWhile_cons, ha]
    | false =>
      have h' := h
      unfold findFirstIdx at h'
      rw [if_neg (by simp [ha]), Option.map_eq_some'] at h'
      obtain ⟨j, hj, hji⟩ := h'
      subst hji
      simp [List.takeWhile_cons, ha, ih j hj]

theorem takeWhile_eq_self_of_all (p : String → Bool) (l : List String)
    (h : ∀ a ∈ l, p a = true) : l.takeWhile p = l := by
  induction l with
  | nil => rfl
  | cons a l ih =>
    simp [List.takeWhile_cons, h a (by simp), ih (fun x hx => h x (by simp [hx]))]

theorem sectionOf_eq_takeWhile (items : List String) (key : String) (i : Nat)
    (h : find_heading items key = some i) :
    sectionOf items key =
      pyStrip (joinNL ((items.drop (i + 1)).takeWhile (fun t => !is_heading t))) := by
  simp only [sectionOf, h]
  unfold nextHeadingIdx
  cases hf : findFirstIdx is_heading (items.drop (i + 1)) with
  | some d =>
    have hd : i + 1 + d - (i + 1) = d := by omega
    rw [hd, take_eq_takeWhile_of_findFirstIdx _ _ _ hf]
  | none =>
    have hlen : (items.drop (i + 1)).length = items.length - (i + 1) :=
      List.length_drop _ _
    rw [← hlen, List.take_length, takeWhile_eq_self_of_all]
    intro a ha
    have := (findFirstIdx_eq_none_iff _ _).mp hf a ha
    simp [this]

theorem firstValue_cases (l : List String) :
    (firstValue l = "" ∧ ∀ t ∈ l, isValueFragment t = false) ∨
      (∃ pre t post, l = pre ++ t :: post ∧
        (∀ u ∈ pre, isValueFragment u = false) ∧
        isValueFragment t = true ∧ firstValue l = pyStrip t) := by
  induction l with
  | nil => exact Or.inl ⟨rfl, by simp⟩
  | cons a l ih =>
    cases ha : isValueFragment a with
    | true =>
      exact Or.inr ⟨[], a, l, rfl, by simp, ha, by simp [firstValue, ha]⟩
    | false =>
      cases ih with
      | inl h =>
        refine Or.inl ⟨by simp [firstValue, ha, h.1], ?_⟩
        intro t ht
        rcases List.mem_cons.mp ht with rfl | ht'
        · exact ha
        · exact h.2 t ht'
      | inr h =>
        obtain ⟨pre, t, post, hl, hpre, ht, hfv⟩ := h
        refine Or.inr ⟨a :: pre, t, post, by rw [hl, List.cons_append], ?_, ht,
          by simp [firstValue, ha, hfv]⟩
        intro u hu
        rcases List.mem_cons.mp hu with rfl | hu'
        · exact ha
        · exact hpre u hu'

theorem pyStrip_empty : pyStrip "" = "" := rfl

theorem firstValue_trimmed (l : List String) :
    pyStrip (firstValue l) = firstValue l := by
  induction l with
  | nil => rfl
  | cons a l ih =>
    cases ha : isValueFragment a with
    | true => simp [firstValue, ha, pyStrip_idem]
    | false => simp [firstValue, ha, ih]

theorem find?_eq_some_decomp (p : String → Bool) (l : List String) (x : String)
    (h : l.find? p = some x) :
    ∃ pre post, l = pre ++ x :: post ∧ p x = true ∧ ∀ u ∈ pre, p u = false := by
  induction l with
  | nil => simp [List.find?] at h
  | cons a l ih =>
    cases ha : p a with
    | true =>
      rw [List.find?_cons_of_pos l ha] at h
      cases h
      exact ⟨[], l, rfl, ha, by simp⟩
    | false =>
      rw [List.find?_cons_of_neg l (by simp [ha])] at h
      obtain ⟨pre, post, hl, hx, hpre⟩ := ih h
      refine ⟨a :: pre, post, by rw [hl, List.cons_append], hx, ?_⟩
      intro u hu
      rcases List.mem_cons.mp hu with rfl | hu'
      · exact ha
      · exact hpre u hu'

theorem value_after_trimmed (items : List String) (key : String) :
    pyStrip (value_after items key) = value_after items key := by
  cases hf : find_heading items key with
  | none => simp only [value_after, hf, pyStrip_empty]
  | some i =>
    simp only [value_after, hf]
    exact firstValue_trimmed _

theorem sectionOf_trimmed (items : List String) (key : String) :
    pyStrip (sectionOf items key) = sectionOf items key := by
  cases hf : find_heading items key with
  | none => simp only [sectionOf, hf, pyStrip_empty]
  | some i =>
    simp only [sectionOf, hf]
    exact pyStrip_idem _

/-! Claim theorems. -/

/-- Claim C1: when the heading for `key` occurs in the fragment sequence
(at first occurrence index `i`), `section(key)` returns exactly the
fragments strictly between that occurrence and the next fragment
recognized as any catalogue heading (or the end of the sequence),
newline-joined and trimmed; the heading fragment itself and every
fragment at or beyond the next recognized heading are excluded. -/
theorem c1_section_span (items : List String) (key : String) (i : Nat)
    (h : find_heading items key = some i) :
    ∃ pre hd mid post,
      items = pre ++ hd :: (mid ++ post) ∧
      pre.length = i ∧
      keyMatches key hd = true ∧
      (∀ u ∈ pre, keyMatches key u = false) ∧
      (∀ u ∈ mid, is_heading u = false) ∧
      (post = [] ∨ ∃ nh rest, post = nh :: rest ∧ is_heading nh = true) ∧
      sectionOf items key = pyStrip (joinNL mid) := by
  obtain ⟨pre, hd, rest, hitems, hlen, hhd, hpre⟩ := findFirstIdx_eq_some _ _ _ h
  refine ⟨pre, hd, rest.takeWhile (fun t => !is_heading t),
    rest.dropWhile (fun t => !is_heading t), ?_, hlen, hhd, hpre, ?_, ?_, ?_⟩
  · rw [List.takeWhile_append_dropWhile]
    exact hitems
  · intro u hu
    have := List.mem_takeWhile_imp hu
    simpa using this
  · cases hpost : rest.dropWhile (fun t => !is_heading t) with
    | nil => exact Or.inl rfl
    | cons nh tail =>
      refine Or.inr ⟨nh, tail, rfl, ?_⟩
      have := head_dropWhile_false (fun t => !is_heading t) rest nh tail hpost
      simpa using this
  · rw [sectionOf_eq_takeWhile items key i h]
    have hdropeq : items.drop (i + 1) = rest := by
      rw [hitems]
      have h1 : pre ++ hd :: rest = (pre ++ [hd]) ++ rest := by simp
      have h2 : (pre ++ [hd]).length = i + 1 := by simp [hlen]
      rw [h1, ← h2, List.drop_left]
    rw [hdropeq]

/-- Claim C1 witness: Scenario A, `section("Root Cause")` and the general
span decomposition at that input. -/
theorem c1_section_span_witness :
    find_heading ["Root Cause", "Line one.", "Line two.", "Workaround",
        "Fix applied."] "Root Cause" = some 0
    ∧ sectionOf ["Root Cause", "Line one.", "Line two.", "Workaround",
        "Fix applied."] "Root Cause" = "Line one.\nLine two."
    ∧ sectionOf ["Root Cause", "Line one.", "Line two.", "Workaround",
        "Fix applied."] "Workaround" = "Fix applied."
    ∧ (∃ pre hd mid post,
        ["Root Cause", "Line one.", "Line two.", "Workaround", "Fix applied."]
            = pre ++ hd :: (mid ++ post) ∧
          pre.length = 0 ∧
          keyMatches "Root Cause" hd = true ∧
          (∀ u ∈ pre, keyMatches "Root Cause" u = false) ∧
          (∀ u ∈ mid, is_heading u = false) ∧
          (post = [] ∨ ∃ nh rest, post = nh :: rest ∧ is_heading nh = true) ∧
          sectionOf ["Root Cause", "Line one.", "Line two.", "Workaround",
            "Fix applied."] "Root Cause" = pyStrip (joinNL mid)) :=
  ⟨by decide, by decide, by decide, c1_section_span _ _ 0 (by decide)⟩

/-- Claim C2 counterexample: on Scenario C's narrative the code does not
produce the claimed list — the 5-character line "Do X." is at or below
the 8-character threshold and is dropped. -/
theorem c2_counterexample :
    actionsOf "- Do X.\n- Y\n\n- Create an internal ticket to track closure."
      ≠ ["Do X.", "Create an internal ticket to track closure."] := by decide

/-- Claim C2 (amended): on the Scenario C narrative the action-item
decomposition produces exactly
`["Create an internal ticket to track closure."]`; both "Do X." (5
characters after bullet stripping) and "Y" are at or below the
8-character threshold and are dropped. -/
theorem c2_actions_scenarioC :
    actionsOf "- Do X.\n- Y\n\n- Create an internal ticket to track closure."
      = ["Create an internal ticket to track closure."] := by decide

/-- Claim C3 counterexample: with the heading followed by 11 recognized
headings and then a date, `value_after` returns the empty string although
the date is within a 12-fragment lookahead window (the code's scan covers
only the 11 fragments at offsets 1 through 11). -/
theorem c3_counterexample :
    value_after
        ["Incident Date", "Stage", "Stage", "Stage", "Stage", "Stage", "Stage",
          "Stage", "Stage", "Stage", "Stage", "Stage", "09/02/2026"]
        "Incident Date" = ""
    ∧ value_after_claimWindow
        ["Incident Date", "Stage", "Stage", "Stage", "Stage", "Stage", "Stage",
          "Stage", "Stage", "Stage", "Stage", "Stage", "09/02/2026"]
        "Incident Date" = "09/02/2026" := by decide

/-- Claim C3 (amended): when the heading for `key` is found at index `i`,
`value_after` scans a window of at most 11 fragments (indices `i + 1`
through `min(i + 12, length) - 1`) and returns the first fragment of the
window that is non-empty after trimming and not a recognized heading,
trimmed; if every window fragment is empty or a heading, it returns the
empty string. -/
theorem c3_value_after_window (items : List String) (key : String) (i : Nat)
    (h : find_heading items key = some i) :
    ((items.drop (i + 1)).take (min (i + 12) items.length - (i + 1))).length ≤ 11
    ∧ value_after items key
        = firstValue ((items.drop (i + 1)).take (min (i + 12) items.length - (i + 1)))
    ∧ ((value_after items key = "" ∧
          ∀ t ∈ (items.drop (i + 1)).take (min (i + 12) items.length - (i + 1)),
            isValueFragment t = false) ∨
        (∃ pre t post,
          (items.drop (i + 1)).take (min (i + 12) items.length - (i + 1))
              = pre ++ t :: post ∧
            (∀ u ∈ pre, isValueFragment u = false) ∧
            isValueFragment t = true ∧
            value_after items key = pyStrip t)) := by
  have hva : value_after items key
      = firstValue ((items.drop (i + 1)).take (min (i + 12) items.length - (i + 1))) := by
    simp only [value_after, h]
  refine ⟨?_, hva, ?_⟩
  · have h1 : ((items.drop (i + 1)).take (min (i + 12) items.length - (i + 1))).length
        ≤ min (i + 12) items.length - (i + 1) := by
      rw [List.length_take]
      exact Nat.min_le_left _ _
    have h2 : min (i + 12) items.length - (i + 1) ≤ 11 := by omega
    exact le_trans h1 h2
  · rw [hva]
    exact firstValue_cases _

/-- Claim C3 witness: Scenario B, `value_after("Incident Date")` =
"09/02/2026", and the window characterization at that input. -/
theorem c3_value_after_window_witness :
    find_heading ["Incident Date", "09/02/2026", "Root Cause", "..."]
        "Incident Date" = some 0
    ∧ value_after ["Incident Date", "09/02/2026", "Root Cause", "..."]
        "Incident Date" = "09/02/2026"
    ∧ ((((["Incident Date", "09/02/2026", "Root Cause", "..."] : List String).drop
            (0 + 1)).take
          (min (0 + 12)
            (["Incident Date", "09/02/2026", "Root Cause", "..."] : List String).length
              - (0 + 1))).length ≤ 11
        ∧ value_after ["Incident Date", "09/02/2026", "Root Cause", "..."]
            "Incident Date"
          = firstValue (((["Incident Date", "09/02/2026", "Root Cause",
              "..."] : List String).drop (0 + 1)).take
              (min (0 + 12)
                (["Incident Date", "09/02/2026", "Root Cause",
                  "..."] : List String).length - (0 + 1)))
        ∧ ((value_after ["Incident Date", "09/02/2026", "Root Cause", "..."]
              "Incident Date" = "" ∧
              ∀ t ∈ (((["Incident Date", "09/02/2026", "Root Cause",
                  "..."] : List String).drop (0 + 1)).take
                  (min (0 + 12)
                    (["Incident Date", "09/02/2026", "Root Cause",
                      "..."] : List String).length - (0 + 1))),
                isValueFragment t = false) ∨
            (∃ pre t post,
              (((["Incident Date", "09/02/2026", "Root Cause",
                  "..."] : List String).drop (0 + 1)).take
                  (min (0 + 12)
                    (["Incident Date", "09/02/2026", "Root Cause",
                      "..."] : List String).length - (0 + 1)))
                  = pre ++ t :: post ∧
                (∀ u ∈ pre, isValueFragment u = false) ∧
                isValueFragment t = true ∧
                value_after ["Incident Date", "09/02/2026", "Root Cause", "..."]
                  "Incident Date" = pyStrip t))) :=
  ⟨by decide, by decide, c3_value_after_window _ _ 0 (by decide)⟩

/-- Claim C4 counterexample: the narrative consisting of a form-feed
character followed by "abcdefgh" (9 characters, so it passes the
`len(ln) > 8` filter) yields an action item whose whitespace-trimmed
length is 8, not strictly greater than 8 — `strip(" \t•-")` does not
remove the leading form feed. -/
theorem c4_counterexample :
    actionsOf (String.mk (Char.ofNat 12 :: ['a', 'b', 'c', 'd', 'e', 'f', 'g', 'h']))
        = [String.mk (Char.ofNat 12 :: ['a', 'b', 'c', 'd', 'e', 'f', 'g', 'h'])]
    ∧ pyStrip (String.mk (Char.ofNat 12 :: ['a', 'b', 'c', 'd', 'e', 'f', 'g', 'h']))
        = "abcdefgh"
    ∧ ¬ 8 < (pyStrip (String.mk
        (Char.ofNat 12 :: ['a', 'b', 'c', 'd', 'e', 'f', 'g', 'h']))).length := by
  decide

/-- Claim C4 (amended): every string in the action-item list has length
strictly greater than 8 after stripping leading/trailing spaces, tabs,
bullet characters and hyphens (each item is already in that stripped
form), and no item is the empty string; items may still carry other
leading/trailing whitespace such as form feed, so the fully
whitespace-trimmed length can be 8 or less. -/
theorem c4_actions_filtered (long_term : String) :
    ∀ a ∈ actionsOf long_term, 8 < a.length ∧ stripBullets a = a ∧ a ≠ "" := by
  intro a ha
  unfold actionsOf at ha
  obtain ⟨hraw, hlen⟩ := List.mem_filter.mp ha
  have hlen' : 8 < a.length := by simpa using hlen
  refine ⟨hlen', ?_, ?_⟩
  · unfold rawLines at hraw
    obtain ⟨ln, hln, hlneq⟩ := List.mem_map.mp hraw
    rw [← hlneq]
    exact stripBullets_idem ln
  · intro hempty
    rw [hempty] at hlen'
    simp at hlen'

/-- Claim C4 witness: the surviving Scenario C action item satisfies the
amended filtering invariant. -/
theorem c4_actions_filtered_witness :
    8 < ("Create an internal ticket to track closure." : String).length
    ∧ stripBullets "Create an internal ticket to track closure."
        = "Create an internal ticket to track closure."
    ∧ ("Create an internal ticket to track closure." : String) ≠ "" :=
  c4_actions_filtered
    "- Do X.\n- Y\n\n- Create an internal ticket to track closure." _ (by decide)

/-- Claim C5: if no fragment of the sequence matches the key (so the
heading never occurs), `find_heading` returns nothing and both
`value_after` and `section` return the empty string; extraction is total
by construction, so no exception can propagate. -/
theorem c5_absent_heading (items : List String) (key : String)
    (h : ∀ t ∈ items, keyMatches key t = false) :
    find_heading items key = none
    ∧ value_after items key = ""
    ∧ sectionOf items key = "" := by
  have hf : find_heading items key = none := (findFirstIdx_eq_none_iff _ _).mpr h
  refine ⟨hf, ?_, ?_⟩
  · simp only [value_after, hf]
  · simp only [sectionOf, hf]

/-- Claim C5 witness: a sequence without the "Services Affected" heading
yields empty fields (Scenario D shape). -/
theorem c5_absent_heading_witness :
    (∀ t ∈ (["General Notes", "Some text"] : List String),
      keyMatches "Services Affected" t = false)
    ∧ (find_heading ["General Notes", "Some text"] "Services Affected" = none
        ∧ value_after ["General Notes", "Some text"] "Services Affected" = ""
        ∧ sectionOf ["General Notes", "Some text"] "Services Affected" = "") :=
  ⟨by decide, c5_absent_heading _ _ (by decide)⟩

/-- Claim C6: for trimmed fragments (the linearizer emits only trimmed
text), the title is the first fragment among the first 25 whose trimmed
length is strictly greater than 8 and strictly less than 140; if none
qualifies, the title falls back to the supplied filename. -/
theorem c6_title_heuristic (items : List String) (name : String)
    (htrim : ∀ t ∈ items, pyStrip t = t) :
    (∃ pre t post,
        items.take 25 = pre ++ t :: post ∧
        (∀ u ∈ pre, ¬(8 < (pyStrip u).length ∧ (pyStrip u).length < 140)) ∧
        8 < (pyStrip t).length ∧ (pyStrip t).length < 140 ∧
        titleOf items name = t) ∨
      ((∀ t ∈ items.take 25, ¬(8 < (pyStrip t).length ∧ (pyStrip t).length < 140)) ∧
        titleOf items name = name) := by
  have htake : ∀ t ∈ items.take 25, pyStrip t = t :=
    fun t ht => htrim t (List.take_subset _ _ ht)
  cases hf : (items.take 25).find? titleCandidate with
  | none =>
    refine Or.inr ⟨?_, by simp only [titleOf, hf]⟩
    intro t ht
    have hcand := List.find?_eq_none.mp hf t ht
    rw [htake t ht]
    intro hcontra
    exact hcand (by simp [titleCandidate, hcontra.1, hcontra.2])
  | some t =>
    obtain ⟨pre, post, hsplit, ht, hpre⟩ := find?_eq_some_decomp _ _ _ hf
    have htmem : t ∈ items.take 25 := by rw [hsplit]; simp
    have htc : 8 < t.length ∧ t.length < 140 := by
      have := ht
      simp [titleCandidate] at this
      exact this
    refine Or.inl ⟨pre, t, post, hsplit, ?_, ?_, ?_, ?_⟩
    · intro u hu
      have humem : u ∈ items.take 25 := by rw [hsplit]; simp [hu]
      rw [htake u humem]
      intro hcontra
      have : titleCandidate u = true := by
        simp [titleCandidate, hcontra.1, hcontra.2]
      rw [hpre u hu] at this
      exact Bool.false_ne_true this
    · rw [htake t htmem]; exact htc.1
    · rw [htake t htmem]; exact htc.2
    · simp only [titleOf, hf]
      exact htake t htmem

/-- Claim C6 witness: Scenario E shape — a 30-fragment document whose
first 25 fragments are all too short, so the title falls back to the
supplied document name. -/
theorem c6_title_heuristic_witness :
    (∀ t ∈ List.replicate 30 "tiny", pyStrip t = t)
    ∧ titleOf (List.replicate 30 "tiny") "report.docx" = "report.docx"
    ∧ ((∃ pre t post,
          (List.replicate 30 "tiny").take 25 = pre ++ t :: post ∧
          (∀ u ∈ pre, ¬(8 < (pyStrip u).length ∧ (pyStrip u).length < 140)) ∧
          8 < (pyStrip t).length ∧ (pyStrip t).length < 140 ∧
          titleOf (List.replicate 30 "tiny") "report.docx" = t) ∨
        ((∀ t ∈ (List.replicate 30 "tiny").take 25,
            ¬(8 < (pyStrip t).length ∧ (pyStrip t).length < 140)) ∧
          titleOf (List.replicate 30 "tiny") "report.docx" = "report.docx")) :=
  ⟨by decide, by decide, c6_title_heuristic _ _ (by decide)⟩

/-- Claim C7: the catalogue has 12 entries; a fragment is recognized as a
heading iff its trimmed, lowercased text equals or starts with the
lowercased form of some catalogue entry; `find_heading(key)` returns the
index of the first fragment whose trimmed, lowercased text equals or
starts with the lowercased key, and nothing when no fragment matches. -/
theorem c7_heading_recognition :
    HEADINGS.length = 12
    ∧ (∀ t : String, is_heading t = true ↔
        ∃ h ∈ HEADINGS,
          pyLower (pyStrip t) = pyLower h ∨
            strStartsWith (pyLower (pyStrip t)) (pyLower h) = true)
    ∧ (∀ key t : String, keyMatches key t = true ↔
        pyLower (pyStrip t) = pyLower key ∨
          strStartsWith (pyLower (pyStrip t)) (pyLower key) = true)
    ∧ (∀ (items : List String) (key : String) (i : Nat),
        find_heading items key = some i ↔
          ∃ pre x post, items = pre ++ x :: post ∧ pre.length = i ∧
            keyMatches key x = true ∧ ∀ u ∈ pre, keyMatches key u = false)
    ∧ (∀ (items : List String) (key : String),
        find_heading items key = none ↔ ∀ t ∈ items, keyMatches key t = false) := by
  refine ⟨rfl, ?_, ?_, ?_, ?_⟩
  · intro t
    unfold is_heading
    rw [List.any_eq_true]
    constructor
    · rintro ⟨h, hmem, hp⟩
      refine ⟨h, hmem, ?_⟩
      simpa using hp
    · rintro ⟨h, hmem, hp⟩
      refine ⟨h, hmem, ?_⟩
      simpa using hp
  · intro key t
    unfold keyMatches
    simp
  · intro items key i
    constructor
    · exact findFirstIdx_eq_some _ _ _
    · rintro ⟨pre, x, post, rfl, rfl, hx, hpre⟩
      exact findFirstIdx_append_cons _ _ _ _ hpre hx
  · intro items key
    exact findFirstIdx_eq_none_iff _ _

/-- Claim C8 counterexample: the save handler inserts the remedial-action
record with status "To Do", not the claimed default status "pending". -/
theorem c8_counterexample :
    (saveActionRows (fun _ => "ACT-XXXXXXX") "RCA-XXXXXXX" 0
        ["Create an internal ticket to track closure."]).map (fun r => r.status)
      = ["To Do"]
    ∧ (saveActionRows (fun _ => "ACT-XXXXXXX") "RCA-XXXXXXX" 0
        ["Create an internal ticket to track closure."]).map (fun r => r.status)
      ≠ ["pending"] := by decide

/-- Claim C8 (amended): one remedial-action record is created per action
item, in order, each carrying the default owner (team "Tech", empty
person), a due date 14 days after the save date, default status "To Do"
(the schema's default open status, not the literal "pending"), and the
default verification method. -/
theorem c8_action_row_defaults (genId : Nat → String) (rid : String)
    (today : Nat) (items : List String) (name : String) :
    (saveActionRows genId rid today (parse_rca_docx items name).actions).length
        = (parse_rca_docx items name).actions.length
    ∧ (saveActionRows genId rid today (parse_rca_docx items name).actions).map
        (fun r => r.action_text) = (parse_rca_docx items name).actions
    ∧ ∀ r ∈ saveActionRows genId rid today (parse_rca_docx items name).actions,
        r.owner_team = "Tech" ∧ r.owner_person = "" ∧ r.due_date = today + 14
          ∧ r.status = "To Do"
          ∧ r.verification_method = "Evidence link + independent verification" := by
  refine ⟨?_, ?_, ?_⟩
  · simp [saveActionRows]
  · rw [saveActionRows, List.map_map]
    have hcomp : ((fun r => r.action_text) ∘
        fun p => mkActionRow (genId p.1) rid today p.2) = Prod.snd := by
      funext p
      rfl
    rw [hcomp, List.enum_map_snd]
  · intro r hr
    obtain ⟨p, hp, hpr⟩ := List.mem_map.mp hr
    rw [← hpr]
    exact ⟨rfl, rfl, rfl, rfl, rfl⟩

/-- Claim C9: extraction is a deterministic pure function of the fragment
sequence and the supplied filename — two runs on equal inputs yield equal
Extracted Records (the embedding is a function precisely because
`parse_rca_docx` reads nothing but its arguments and the constant
catalogue). -/
theorem c9_extraction_deterministic (items₁ items₂ : List String)
    (n₁ n₂ : String) (h₁ : items₁ = items₂) (h₂ : n₁ = n₂) :
    parse_rca_docx items₁ n₁ = parse_rca_docx items₂ n₂ := by
  rw [h₁, h₂]

/-- Claim C9 witness: two runs on an identical concrete input agree. -/
theorem c9_extraction_deterministic_witness :
    parse_rca_docx ["Root Cause", "Server crashed."] "incident.docx"
      = parse_rca_docx ["Root Cause", "Server crashed."] "incident.docx" :=
  c9_extraction_deterministic _ _ _ _ rfl rfl

/-- Claim C10: every string field of the extracted record that comes from
`value_after` or `section` is fixed by trimming (it carries no leading or
trailing whitespace), and the title is either the filename fallback or
likewise trimmed. -/
theorem c10_fields_trimmed (items : List String) (name : String) :
    pyStrip (parse_rca_docx items name).incident_date
        = (parse_rca_docx items name).incident_date
    ∧ pyStrip (parse_rca_docx items name).services_affected
        = (parse_rca_docx items name).services_affected
    ∧ pyStrip (parse_rca_docx items name).root_cause
        = (parse_rca_docx items name).root_cause
    ∧ pyStrip (parse_rca_docx items name).workaround
        = (parse_rca_docx items name).workaround
    ∧ pyStrip (parse_rca_docx items name).long_term_solutions
        = (parse_rca_docx items name).long_term_solutions
    ∧ ((parse_rca_docx items name).title = name
        ∨ pyStrip (parse_rca_docx items name).title
            = (parse_rca_docx items name).title) := by
  refine ⟨value_after_trimmed _ _, value_after_trimmed _ _, sectionOf_trimmed _ _,
    sectionOf_trimmed _ _, sectionOf_trimmed _ _, ?_⟩
  cases hf : (items.take 25).find? titleCandidate with
  | none =>
    left
    show titleOf items name = name
    simp only [titleOf, hf]
  | some t =>
    right
    show pyStrip (titleOf items name) = titleOf items name
    simp only [titleOf, hf]
    exact pyStrip_idem t

end RCA
